import Mathlib

/-!
Verification of the terrain streaming engine (flat terrain / Mapbox terrain-rgb
tiles).  Shallow embedding of the JavaScript source:

* `src/src/flat-terrain.js` — `WorkerPool`, `QuadTreeNode`, `FlatTerrainManager`,
  the `mapbox_terrain` module (`TileCache`, `LoadingTracker`,
  `MapboxTerrainProvider`) and the tile worker (`sampleHeightBilinear`,
  `TileTerrainBuilder`);
* `src/server.js` — the second `FlatTerrainManager` variant (quadtree LOD
  `_subdivideNode`, `Update` with unconditional removal of undesired keys);
* `src/unnamed/part_000` — `FlatTerrainBuilder` (chunk worker, `_getTerrainColor`).

JavaScript numbers are modelled as exact rationals (`ℚ`) where the properties
under study are discrete/axis-orientation facts, and as reals (`ℝ`) where
transcendental functions (`cos`, `tan`, `log`, `sqrt`) occur.  Stateful classes
become explicit state-passing step functions over lists; string map keys
`` `${z}/${x}/${y}` `` become the injective tuple key `ℤ × ℤ × ℤ`.
-/

namespace Terrain

/-! ## Bilinear samplers (worker `sampleHeightBilinear` and the
`MapboxTerrainProvider.getHeightAt` / `MapboxHeightGenerator.Get` interpolation
block).

The provider uses the module constant `TILE_SIZE = 256`; the worker takes
`tileSize` as a parameter.  Both interpolation bodies are embedded with the
size as a parameter so they can be compared on one grid, and `TILE_SIZE` is
kept for the provider-side instantiation. -/

def TILE_SIZE : ℕ := 256

/-- Grid lookup `heightData[y * tileSize + x]` with the worker's `|| 0`
out-of-range/absent default (the provider indexes raw, but its indices are
always in range for the inputs it receives). -/
def gridAt (heightData : List ℚ) (tileSize : ℕ) (x y : ℤ) : ℚ :=
  heightData.getD (y * tileSize + x).toNat 0

/-- The bilinear interpolation block of `MapboxTerrainProvider.getHeightAt`
(flat-terrain.js lines 881–902; the identical block appears in
`MapboxHeightGenerator.Get`): `px = fracX·(tileSize−1)`, `py = fracY·(tileSize−1)`,
corner lookups clamped to `tileSize−1`, then two-axis linear blend.  No axis is
inverted. -/
def providerBilinear (heights : List ℚ) (tileSize : ℕ) (fracX fracY : ℚ) : ℚ :=
  let px := fracX * ((tileSize : ℚ) - 1)
  let py := fracY * ((tileSize : ℚ) - 1)
  let x0 := ⌊px⌋
  let y0 := ⌊py⌋
  let x1 := min (x0 + 1) ((tileSize : ℤ) - 1)
  let y1 := min (y0 + 1) ((tileSize : ℤ) - 1)
  let fx := px - x0
  let fy := py - y0
  let h00 := gridAt heights tileSize x0 y0
  let h10 := gridAt heights tileSize x1 y0
  let h01 := gridAt heights tileSize x0 y1
  let h11 := gridAt heights tileSize x1 y1
  let h0 := h00 * (1 - fx) + h10 * fx
  let h1 := h01 * (1 - fx) + h11 * fx
  h0 * (1 - fy) + h1 * fy

/-- `getHeightAt`'s interpolation at the source's fixed `TILE_SIZE = 256`. -/
def getHeightAtInterp (heights : List ℚ) (fracX fracY : ℚ) : ℚ :=
  providerBilinear heights TILE_SIZE fracX fracY

/-- Worker-side `sampleHeightBilinear` (flat-terrain.js lines 1079–1103): it
first replaces `v` by `1 − v` and `u` by `1 − u`, then runs the same
interpolation body as the provider block. -/
def sampleHeightBilinear (heightData : List ℚ) (tileSize : ℕ) (u v : ℚ) : ℚ :=
  let v' := 1 - v
  let u' := 1 - u
  let px := u' * ((tileSize : ℚ) - 1)
  let py := v' * ((tileSize : ℚ) - 1)
  let x0 := ⌊px⌋
  let y0 := ⌊py⌋
  let x1 := min (x0 + 1) ((tileSize : ℤ) - 1)
  let y1 := min (y0 + 1) ((tileSize : ℤ) - 1)
  let fx := px - x0
  let fy := py - y0
  let h00 := gridAt heightData tileSize x0 y0
  let h10 := gridAt heightData tileSize x1 y0
  let h01 := gridAt heightData tileSize x0 y1
  let h11 := gridAt heightData tileSize x1 y1
  let h0 := h00 * (1 - fx) + h10 * fx
  let h1 := h01 * (1 - fx) + h11 * fx
  h0 * (1 - fy) + h1 * fy

/-! ## Terrain colouring (`FlatTerrainBuilder._getTerrainColor`, part_000 lines
203–252; `TileTerrainBuilder._getTerrainColor`, flat-terrain.js lines 1337–1378
is the identical body modulo the unused `normalizedHeight` argument). -/

/-- `lerp` from the workers: the interpolation parameter is clamped to `[0,1]`
before blending. -/
def lerp (a b t : ℚ) : ℚ := a + (b - a) * max 0 (min 1 t)

/-- An RGB colour as a triple of rationals. -/
structure Color where
  r : ℚ
  g : ℚ
  b : ℚ
deriving DecidableEq

/-- `lerpColor` from the workers. -/
def lerpColor (c1 c2 : Color) (t : ℚ) : Color :=
  ⟨lerp c1.r c2.r t, lerp c1.g c2.g t, lerp c1.b c2.b t⟩

def deepWater : Color := ⟨1/10, 2/10, 5/10⟩
def shallowWater : Color := ⟨2/10, 4/10, 6/10⟩
def beach : Color := ⟨85/100, 83/100, 65/100⟩
def grass : Color := ⟨3/10, 6/10, 2/10⟩
def forest : Color := ⟨2/10, 4/10, 15/100⟩
def rock : Color := ⟨5/10, 45/100, 4/10⟩
def snow : Color := ⟨95/100, 95/100, 97/100⟩

/-- The height-banded palette `_getTerrainColor` shared verbatim by both mesh
workers (part_000 and the tile worker in flat-terrain.js). -/
def getTerrainColor (h : ℚ) : Color :=
  if h < 0 then lerpColor deepWater shallowWater (max 0 (min 1 ((h + 100) / 100)))
  else if h < 10 then lerpColor shallowWater beach (h / 10)
  else if h < 500 then lerpColor beach grass ((h - 10) / (500 - 10))
  else if h < 1500 then lerpColor grass forest ((h - 500) / (1500 - 500))
  else if h < 2500 then lerpColor forest rock ((h - 1500) / (2500 - 1500))
  else if h < 3500 then lerpColor rock snow ((h - 2500) / (3500 - 2500))
  else snow

/-! ## TileCache (flat-terrain.js lines 651–692).

The JS `Map` keyed by `` `${z}/${x}/${y}` `` becomes an association list keyed
by the tuple `(z, x, y)` (the string key is injective on integer components);
`Map.set` overwrites in place or appends, `Map.delete` filters, matching JS
`Map` insertion-order semantics.  `_accessOrder` is a plain array of keys. -/

/-- Tile identity `(z, x, y)` — the injective image of the string key. -/
abbrev TileKey : Type := ℤ × ℤ × ℤ

/-- `Map.has`. -/
def mapHas (m : List (TileKey × ℕ)) (k : TileKey) : Bool :=
  (m.lookup k).isSome

/-- `Map.set`: overwrite the existing binding in place, else append. -/
def mapSet (m : List (TileKey × ℕ)) (k : TileKey) (v : ℕ) : List (TileKey × ℕ) :=
  if mapHas m k then m.map (fun p => if p.1 = k then (k, v) else p)
  else m ++ [(k, v)]

/-- `Map.delete`. -/
def mapDelete (m : List (TileKey × ℕ)) (k : TileKey) : List (TileKey × ℕ) :=
  m.filter (fun p => p.1 ≠ k)

/-- `TileCache` state: `_cache`, `_accessOrder`, `_maxSize`.  Decoded tile
payloads are abstracted to `ℕ` tokens (their contents never matter to the
cache). -/
structure CacheState where
  cache : List (TileKey × ℕ)
  accessOrder : List TileKey
  maxSize : ℕ
deriving DecidableEq

/-- `TileCache.get`: on a hit, splice the key out of `_accessOrder` (removing
its first occurrence, as `indexOf`/`splice` do) and push it to the end, then
return the data; on a miss return `null` and change nothing. -/
def cacheGet (k : TileKey) (s : CacheState) : Option ℕ × CacheState :=
  match s.cache.lookup k with
  | some v => (some v, { s with accessOrder := s.accessOrder.erase k ++ [k] })
  | none => (none, s)

/-- The `while (cache.size >= maxSize && accessOrder.length > 0)` eviction loop
of `TileCache.set`: repeatedly shift the oldest key off `_accessOrder` and
delete it from `_cache`.  Returns the final cache, the remaining order, and
the list of shifted (evicted) keys in eviction order. -/
def evictLoop (maxSize : ℕ) :
    List (TileKey × ℕ) → List TileKey → List (TileKey × ℕ) × List TileKey × List TileKey
  | cache, [] => (cache, [], [])
  | cache, oldest :: rest =>
    if maxSize ≤ cache.length then
      let r := evictLoop maxSize (mapDelete cache oldest) rest
      (r.1, r.2.1, oldest :: r.2.2)
    else (cache, oldest :: rest, [])

/-- `TileCache.set`: run the eviction loop, then insert the binding and push
the key onto `_accessOrder`. -/
def cacheSet (k : TileKey) (v : ℕ) (s : CacheState) : CacheState :=
  let r := evictLoop s.maxSize s.cache s.accessOrder
  ⟨mapSet r.1 k v, r.2.1 ++ [k], s.maxSize⟩

/-- The keys a `TileCache.set` call would evict from the given state, in
eviction order. -/
def cacheSetEvicted (s : CacheState) : List TileKey :=
  (evictLoop s.maxSize s.cache s.accessOrder).2.2

/-- The `_accessOrder` suffix surviving the eviction loop of a `set` call
(before the new key is pushed). -/
def cacheSetSurvivors (s : CacheState) : List TileKey :=
  (evictLoop s.maxSize s.cache s.accessOrder).2.1

/-- An externally-driven cache operation: `get(z,x,y)` or `set(z,x,y,data)`. -/
inductive CacheOp where
  | get (k : TileKey)
  | set (k : TileKey) (v : ℕ)
deriving DecidableEq

def applyOp (s : CacheState) : CacheOp → CacheState
  | .get k => (cacheGet k s).2
  | .set k v => cacheSet k v s

/-- Run a sequence of operations against a fresh `TileCache(maxSize)`. -/
def runCache (maxSize : ℕ) (ops : List CacheOp) : CacheState :=
  ops.foldl applyOp ⟨[], [], maxSize⟩

/-! Ghost instrumentation: the same run, additionally recording for every key
the index (a logical clock) of the last operation that accessed it — a
resident `get` hit or any `set` of the key.  This is the reference notion of
"least recently accessed" the LRU claim speaks about. -/

/-- Instrumented cache state: the real state plus last-access clocks. -/
structure ICache where
  st : CacheState
  la : TileKey → ℕ
  clock : ℕ

def applyOpI (t : ICache) : CacheOp → ICache
  | .get k =>
    { st := (cacheGet k t.st).2
      la := if mapHas t.st.cache k then Function.update t.la k t.clock else t.la
      clock := t.clock + 1 }
  | .set k v =>
    { st := cacheSet k v t.st
      la := Function.update t.la k t.clock
      clock := t.clock + 1 }

def runCacheI (maxSize : ℕ) (ops : List CacheOp) : ICache :=
  ops.foldl applyOpI ⟨⟨[], [], maxSize⟩, fun _ => 0, 0⟩

/-- `opFreshAt maxSize ops i` holds (as a `Bool`) when the `i`-th operation,
if it is a `set`, inserts a key that is not resident at that point of the
run.  `loadTile` only ever calls `set` this way: a load is started only for
keys that missed the cache, and concurrent duplicates are collapsed. -/
def opFreshAt (maxSize : ℕ) (ops : List CacheOp) (i : ℕ) : Bool :=
  match ops[i]? with
  | some (.set k _) => !mapHas (runCache maxSize (ops.take i)).cache k
  | _ => true

/-- All `set`s in the run insert non-resident keys. -/
def FreshSets (maxSize : ℕ) (ops : List CacheOp) : Prop :=
  ∀ i, i < ops.length → opFreshAt maxSize ops i = true

instance (maxSize : ℕ) (ops : List CacheOp) : Decidable (FreshSets maxSize ops) :=
  Nat.decidableBallLT _ _

/-! ## `MapboxTerrainProvider._fetchAndDecodeTile` (flat-terrain.js lines
801–871).

The method builds `new Promise(async (resolve, reject) => { const blob =
await (await fetch(url, …)).blob(); … })`.  Per JavaScript semantics, a
rejection of `fetch` (a network error) makes the *inner async executor
function* reject; nothing catches that rejection, `resolve`/`reject` of the
outer promise are never called, and the outer promise stays pending forever
while the rejection surfaces as an unhandled promise rejection.  An image
*decode* failure, by contrast, fires `img.onerror`, which resolves the outer
promise with a zero-filled 256×256 height grid.  The embedding records these
three terminal behaviours of the load promise. -/

/-- Outcome of the `fetch(url)` call and subsequent image decode. -/
inductive FetchResult where
  /-- `fetch` resolved and the blob decoded as an image; pixel `i` of the
  256×256 raster has the given RGB bytes. -/
  | ok (pixel : ℕ → ℕ × ℕ × ℕ)
  /-- `fetch` resolved but the payload failed to decode as an image
  (`img.onerror` fires). -/
  | decodeError
  /-- `fetch` rejected (network error): the `await` inside the async promise
  executor throws. -/
  | networkError

/-- How the promise returned by `_fetchAndDecodeTile` behaves. -/
inductive TileLoadOutcome where
  /-- The promise resolves with a height grid; `isError` mirrors the
  `error: true` flag of the fallback payload. -/
  | resolved (heights : List ℚ) (isError : Bool)
  /-- The promise never settles (and an unhandled rejection is raised). -/
  | neverSettles
deriving DecidableEq

/-- `decodeHeight` (flat-terrain.js line 646):
`-10000 + ((r·256·256 + g·256 + b) · 0.1)`. -/
def decodeHeight (r g b : ℕ) : ℚ :=
  -10000 + ((r * 256 * 256 + g * 256 + b : ℕ) : ℚ) * (1 / 10)

/-- `_fetchAndDecodeTile`, as a function of the fetch/decode outcome.
On success every pixel is decoded and scaled by `heightScale`; on decode
error `img.onerror` resolves a zero-filled grid flagged `error: true`; on a
network error the promise never settles (see the section comment). -/
def fetchAndDecodeTile (heightScale : ℚ) : FetchResult → TileLoadOutcome
  | .ok pixel =>
    .resolved ((List.range (TILE_SIZE * TILE_SIZE)).map fun i =>
      decodeHeight (pixel i).1 (pixel i).2.1 (pixel i).2.2 * heightScale) false
  | .decodeError => .resolved (List.replicate (TILE_SIZE * TILE_SIZE) 0) true
  | .networkError => .neverSettles

/-! ## `MapboxTerrainProvider.loadTile` and `LoadingTracker` (flat-terrain.js
lines 695–719 and 776–799).

`loadTile` runs synchronously up to its first `await`: cache check, loading
check, and registration of a fresh load promise.  The `try { … await … }
finally { … }` continuation (cache insert + `clearLoading`) runs atomically
when the load promise settles.  The model exposes both as steps of a state
machine; pending load promises are identified by the counter `nextId`. -/

/-- Provider state: the tile cache, the `LoadingTracker._pending` map
(key ↦ promise id), and a fresh-promise counter. -/
structure PState where
  cache : CacheState
  pending : List (TileKey × ℕ)
  nextId : ℕ
deriving DecidableEq

/-- What a `loadTile` call returns to its caller. -/
inductive LoadAction where
  /-- Cache hit: the resident grid, returned immediately. -/
  | hit (v : ℕ)
  /-- A load for this key is in flight: the caller receives that same
  pending promise. -/
  | joined (pid : ℕ)
  /-- No cache entry and no in-flight load: a new fetch+decode is started
  and registered. -/
  | started (pid : ℕ)
deriving DecidableEq

/-- The synchronous prefix of `loadTile(z, x, y)`. -/
def loadTile (k : TileKey) (s : PState) : LoadAction × PState :=
  match cacheGet k s.cache with
  | (some v, c') => (.hit v, { s with cache := c' })
  | (none, _) =>
    match s.pending.lookup k with
    | some pid => (.joined pid, s)
    | none =>
      (.started s.nextId,
        { s with pending := s.pending ++ [(k, s.nextId)], nextId := s.nextId + 1 })

/-- The continuation of `loadTile` when the load promise for `k` resolves
with `data`: `tileCache.set(z, x, y, data)` then (in the `finally`)
`clearLoading(z, x, y)`.  A completion event for a key with no registered
load does nothing (no such continuation exists). -/
def completeLoad (k : TileKey) (data : ℕ) (s : PState) : PState :=
  match s.pending.lookup k with
  | some _ =>
    { s with cache := cacheSet k data s.cache
             pending := s.pending.filter (fun p => p.1 ≠ k) }
  | none => s

/-- Events driving the provider: a `loadTile` call, or the settling of a
registered load promise. -/
inductive PEvent where
  | load (k : TileKey)
  | complete (k : TileKey) (data : ℕ)
deriving DecidableEq

def pStep (s : PState) : PEvent → PState
  | .load k => (loadTile k s).2
  | .complete k d => completeLoad k d s

/-- Run the provider from its freshly-constructed state (`cacheSize` as the
cache capacity, empty tracker). -/
def runP (cacheSize : ℕ) (events : List PEvent) : PState :=
  events.foldl pStep ⟨⟨[], [], cacheSize⟩, [], 0⟩

/-! ## `WorkerPool` (flat-terrain.js lines 56–88; identical in server.js's
embedded copy).

`_workers` are identified by their integer ids `0 … size−1`.  `_free` is a JS
array used as a stack (`pop` takes the last element, completion `push`es to
the end); `_busy` is an object keyed by worker id (assignment overwrites,
`delete` removes); `_queue` is FIFO (`push`/`shift`).  Jobs are abstracted to
`ℕ` tokens. -/

/-- Pool state: `_free`, `_busy` (worker id ↦ its current job), `_queue`. -/
structure PoolState where
  free : List ℕ
  busy : List (ℕ × ℕ)
  queue : List ℕ
deriving DecidableEq

/-- `this._busy[worker.id] = worker` — JS object assignment (overwrite). -/
def busyInsert (w job : ℕ) (busy : List (ℕ × ℕ)) : List (ℕ × ℕ) :=
  (w, job) :: busy.filter (fun p => p.1 ≠ w)

/-- `delete this._busy[worker.id]`. -/
def busyRemove (w : ℕ) (busy : List (ℕ × ℕ)) : List (ℕ × ℕ) :=
  busy.filter (fun p => p.1 ≠ w)

/-- The `while (free.length > 0 && queue.length > 0)` dispatch loop of
`WorkerPool._pump`: pop a worker off the end of `_free`, mark it busy with
the head of the queue, repeat. -/
def pumpAux : List ℕ → List (ℕ × ℕ) → List ℕ → PoolState
  | free, busy, [] => ⟨free, busy, []⟩
  | free, busy, j :: rest =>
    match free.getLast? with
    | none => ⟨free, busy, j :: rest⟩
    | some w => pumpAux free.dropLast (busyInsert w j busy) rest

def pump (s : PoolState) : PoolState :=
  pumpAux s.free s.busy s.queue

/-- `WorkerPool.enqueue`: append to the queue, then pump. -/
def poolEnqueue (j : ℕ) (s : PoolState) : PoolState :=
  pump ⟨s.free, s.busy, s.queue ++ [j]⟩

/-- The completion callback installed by `_pump`: remove the worker from
`_busy`, push it back on `_free`, then pump again.  Completions only ever
arrive from workers that were dispatched to, hence the guard. -/
def poolComplete (w : ℕ) (s : PoolState) : PoolState :=
  if (s.busy.map Prod.fst).contains w then
    pump ⟨s.free ++ [w], busyRemove w s.busy, s.queue⟩
  else s

inductive PoolEvent where
  | enqueue (job : ℕ)
  | complete (w : ℕ)
deriving DecidableEq

def poolStep (s : PoolState) : PoolEvent → PoolState
  | .enqueue j => poolEnqueue j s
  | .complete w => poolComplete w s

/-- A fresh pool of `n` workers: all free, nothing busy or queued. -/
def poolInit (n : ℕ) : PoolState :=
  ⟨List.range n, [], []⟩

def runPool (n : ℕ) (events : List PoolEvent) : PoolState :=
  events.foldl poolStep (poolInit n)

/-! ## `FlatTerrainManager.Update` (server.js lines 586–644) and the chunk
completion handler (server.js lines 621–632; the identical handler is at
flat-terrain.js lines 556–569).

Chunk keys are the tuples behind `` `${x}/${y}/${size}` ``.  A chunk record is
either `pending` (build in flight, no mesh yet) or `ready c` where `c`
identifies the built mesh.  `visible` is the set of mesh ids currently shown
(`chunk.show()`), `destroyed` the set of released ones (`chunk.destroy()`). -/

abbrev ChunkKey : Type := ℤ × ℤ × ℤ

inductive ChunkRec where
  | pending
  | ready (c : ℕ)
deriving DecidableEq

/-- Manager state relevant to chunk lifecycle. -/
structure MState where
  chunks : List (ChunkKey × ChunkRec)
  oldChunks : List ChunkRec
  visible : List ℕ
  destroyed : List ℕ
deriving DecidableEq

/-- Mesh ids of the `ready` records in a record list. -/
def readyIds (rs : List (ChunkKey × ChunkRec)) : List ℕ :=
  rs.filterMap fun p => match p.2 with | .ready c => some c | .pending => none

/-- One `Update` frame of the server.js manager, with the desired key set
(the quadtree output `nodes.map(n => n.key)`) and the `workerPool.busy` flag
as inputs: (1) if the pool is idle, destroy and clear `_oldChunks`;
(2) move every resident record whose key is not desired (pending or not)
into `_oldChunks` and delete it; (3) mark every desired, non-resident key
`pending` (its async build starts); (4) `show` every ready resident. -/
def updateFrame (poolBusy : Bool) (desired : List ChunkKey) (s : MState) : MState :=
  let recycledIds := if poolBusy then [] else
    s.oldChunks.filterMap fun r => match r with | .ready c => some c | .pending => none
  let old' := if poolBusy then s.oldChunks else []
  let kept := s.chunks.filter fun p => desired.contains p.1
  let dropped := s.chunks.filter fun p => !desired.contains p.1
  let created := desired.foldl
    (fun cs k => if (cs.lookup k).isSome then cs else cs ++ [(k, ChunkRec.pending)]) kept
  { chunks := created
    oldChunks := old' ++ dropped.map Prod.snd
    visible := (s.visible.filter fun c => !recycledIds.contains c) ++ readyIds created
    destroyed := s.destroyed ++ recycledIds }

/-- The `.then(({chunk, node}) => …)` completion handler shared by both
manager variants: if the key still has a record, install the built chunk as
`ready` and `show()` it; otherwise the chunk was removed while building —
`destroy()` the completed mesh without ever showing it. -/
def completeBuild (key : ChunkKey) (c : ℕ) (s : MState) : MState :=
  if (s.chunks.lookup key).isSome then
    { s with chunks := s.chunks.map fun p => if p.1 = key then (key, ChunkRec.ready c) else p
             visible := c :: s.visible }
  else
    { s with destroyed := c :: s.destroyed }

/-! ## Coordinate math (flat-terrain.js lines 356–371 and 611–631).

These use `Math.cos` / `Math.tan` / `Math.log`; they are embedded over `ℝ`.
Neither function clamps its latitude argument anywhere. -/

open Real in
/-- The local `metersPerDegree` computed by `FlatTerrainManager.worldToLonLat`
and `lonLatToWorld`: `METERS_PER_DEGREE * Math.cos(centerLat * Math.PI / 180)`
with `METERS_PER_DEGREE = 111320`.  Both conversions divide (respectively
multiply) by this quantity. -/
noncomputable def metersPerDegreeLocal (centerLat : ℝ) : ℝ :=
  111320 * Real.cos (centerLat * π / 180)

open Real in
/-- `FlatTerrainManager.worldToLonLat(worldX, worldY)`: equirectangular
approximation anchored at `(centerLon, centerLat)`, dividing `worldX` by the
latitude-scaled meters-per-degree. -/
noncomputable def worldToLonLat (centerLon centerLat worldX worldY : ℝ) : ℝ × ℝ :=
  (centerLon + worldX / metersPerDegreeLocal centerLat,
   centerLat + worldY / 111320)

open Real in
/-- `lat2tileY(lat, zoom)` (flat-terrain.js lines 616–620): the Web-Mercator
row formula, applied to the *raw* latitude — `tan` and `1/cos` at
`lat·π/180` with no clamping. -/
noncomputable def lat2tileY (lat : ℝ) (zoom : ℕ) : ℤ :=
  ⌊(1 - Real.log (Real.tan (lat * π / 180) + 1 / Real.cos (lat * π / 180)) / π)
      / 2 * 2 ^ zoom⌋

/-! ## Quadtree LOD (`QuadTreeNode` and `FlatTerrainManager._subdivideNode`,
server.js lines 455–487). -/

/-- `QuadTreeNode` fields. -/
structure QuadTreeNode where
  x : ℝ
  y : ℝ
  size : ℝ
  level : ℕ

/-- `node.center`. -/
noncomputable def nodeCenter (n : QuadTreeNode) : ℝ × ℝ :=
  (n.x + n.size / 2, n.y + n.size / 2)

/-- The distance computed at the top of `_subdivideNode`:
`Math.sqrt((center.x - cameraPos.x)² + (center.y - cameraPos.z)²)`. -/
noncomputable def nodeDistance (n : QuadTreeNode) (camX camZ : ℝ) : ℝ :=
  Real.sqrt (((nodeCenter n).1 - camX) ^ 2 + ((nodeCenter n).2 - camZ) ^ 2)

/-- `node.subdivide()`: the four half-size children. -/
noncomputable def nodeChildren (n : QuadTreeNode) : List QuadTreeNode :=
  [⟨n.x, n.y, n.size / 2, n.level + 1⟩,
   ⟨n.x + n.size / 2, n.y, n.size / 2, n.level + 1⟩,
   ⟨n.x, n.y + n.size / 2, n.size / 2, n.level + 1⟩,
   ⟨n.x + n.size / 2, n.y + n.size / 2, n.size / 2, n.level + 1⟩]

open Classical in
/-- `_subdivideNode` (server.js lines 469–487): subdivide while
`distance < node.size * 2 && node.size > chunkSize`, else emit the node when
`distance < viewDistance + node.size`.  `fuel` bounds the recursion depth
(the real recursion terminates because `size` halves; fuel `0` returns no
nodes and is never reached for adequate fuel). -/
noncomputable def subdivideNode :
    ℕ → QuadTreeNode → ℝ → ℝ → ℝ → ℝ → List QuadTreeNode
  | 0, _, _, _, _, _ => []
  | fuel + 1, node, camX, camZ, chunkSize, viewDistance =>
    if nodeDistance node camX camZ < node.size * 2 ∧ node.size > chunkSize then
      (nodeChildren node).flatMap
        (fun c => subdivideNode fuel c camX camZ chunkSize viewDistance)
    else if nodeDistance node camX camZ < viewDistance + node.size then [node]
    else []

/-! ## Theorems -/

/-! ### C1 — tile load failure handling -/

/-- Claim C1 evaluated on the code: on a network error (`fetch` rejection)
the load promise built by `_fetchAndDecodeTile` never settles — it is *not*
the claimed all-zero fallback resolution, which the code produces only for
decode errors (`img.onerror`).  The middle conjunct records that a
never-settling promise delivers no grid to any waiter. -/
theorem C1_fetch_failure_eval :
    fetchAndDecodeTile 1 FetchResult.networkError = TileLoadOutcome.neverSettles ∧
    (∀ g e, TileLoadOutcome.neverSettles ≠ TileLoadOutcome.resolved g e) ∧
    fetchAndDecodeTile 1 FetchResult.decodeError
      = TileLoadOutcome.resolved (List.replicate (TILE_SIZE * TILE_SIZE) 0) true :=
  ⟨rfl, fun _ _ h => TileLoadOutcome.noConfusion h, rfl⟩

/-! ### C5 — axis conventions of the two samplers -/

/-- The worker sampler is the provider sampler precomposed with the inversion
`(u, v) ↦ (1 − u, 1 − v)` of both axes (shared helper for C5/C6). -/
theorem sampler_inversion (heightData : List ℚ) (tileSize : ℕ) (u v : ℚ) :
    sampleHeightBilinear heightData tileSize u v
      = providerBilinear heightData tileSize (1 - u) (1 - v) := rfl

/-- Claim C5 is false as stated: on the 2×2 grid `[100, 0, 0, 0]` at
`(u, v) = (0, 0)` the provider-side lookup reads the sample at row 0,
column 0 (value 100) while the worker sampler reads the mirrored corner
(value 0). -/
theorem C5_counterexample :
    sampleHeightBilinear [100, 0, 0, 0] 2 0 0 ≠ providerBilinear [100, 0, 0, 0] 2 0 0 := by
  have hL : sampleHeightBilinear [100, 0, 0, 0] 2 0 0 = 0 := by
    norm_num [sampleHeightBilinear, gridAt]
    rfl
  have hR : providerBilinear [100, 0, 0, 0] 2 0 0 = 100 := by
    norm_num [providerBilinear, gridAt]
  rw [hL, hR]
  norm_num

/-- Claim C5 amended: the two samplers do *not* share one axis convention;
the mesh-resolution sampler inverts both the `u` and the `v` axis relative to
the single-point sampler, i.e. it equals the single-point sampler evaluated
at `(1 − u, 1 − v)`, for every grid and all `u`, `v`. -/
theorem C5_amended_axis_inversion (heightData : List ℚ) (tileSize : ℕ) (u v : ℚ) :
    sampleHeightBilinear heightData tileSize u v
      = providerBilinear heightData tileSize (1 - u) (1 - v) :=
  sampler_inversion heightData tileSize u v

/-! ### C6 — exactness at grid sample points -/

/-- Shared computation for C6: the provider-side interpolation at the exact
normalized coordinates of sample `(row r, column c)` returns the stored value
`g[r·n + c]` with no blending. -/
theorem providerBilinear_at_sample (g : List ℚ) (n r c : ℕ) (hn : 2 ≤ n) :
    providerBilinear g n ((c : ℚ) / ((n : ℚ) - 1)) ((r : ℚ) / ((n : ℚ) - 1))
      = g.getD (r * n + c) 0 := by
  have hne : ((n : ℚ) - 1) ≠ 0 := by
    have h2 : (2 : ℚ) ≤ (n : ℚ) := by exact_mod_cast hn
    linarith
  have hpx : (c : ℚ) / ((n : ℚ) - 1) * ((n : ℚ) - 1) = (c : ℚ) := div_mul_cancel₀ _ hne
  have hpy : (r : ℚ) / ((n : ℚ) - 1) * ((n : ℚ) - 1) = (r : ℚ) := div_mul_cancel₀ _ hne
  have hidx : ((r : ℤ) * (n : ℤ) + (c : ℤ)) = ((r * n + c : ℕ) : ℤ) := by push_cast; ring
  simp only [providerBilinear, hpx, hpy, Int.floor_natCast, Int.cast_natCast, sub_self,
    mul_zero, add_zero, sub_zero, mul_one, gridAt, hidx, Int.toNat_natCast]

/-- Claim C6: both bilinear samplers, evaluated at the exact normalized
coordinates of grid sample `(row r, column c)` — under each sampler's own
axis convention — return that sample's stored value exactly, with no
blending from neighbouring samples.  (Arithmetic is exact rational; the
floating-point tolerance of the claim is not needed.) -/
theorem C6_exact_at_sample_points (g : List ℚ) (n r c : ℕ)
    (hn : 2 ≤ n) (hr : r < n) (hc : c < n) :
    providerBilinear g n ((c : ℚ) / ((n : ℚ) - 1)) ((r : ℚ) / ((n : ℚ) - 1))
        = g.getD (r * n + c) 0 ∧
    sampleHeightBilinear g n (1 - (c : ℚ) / ((n : ℚ) - 1)) (1 - (r : ℚ) / ((n : ℚ) - 1))
        = g.getD (r * n + c) 0 := by
  refine ⟨providerBilinear_at_sample g n r c hn, ?_⟩
  rw [sampler_inversion, sub_sub_cancel, sub_sub_cancel]
  exact providerBilinear_at_sample g n r c hn

/-- Witness for C6 at the 2×2 grid `[5, 7, 11, 13]`, sample `(r, c) = (0, 1)`
(stored value `7`). -/
theorem C6_witness :
    (2 ≤ 2 ∧ 0 < 2 ∧ 1 < 2) ∧
    (providerBilinear [5, 7, 11, 13] 2 (((1 : ℕ) : ℚ) / (((2 : ℕ) : ℚ) - 1))
          (((0 : ℕ) : ℚ) / (((2 : ℕ) : ℚ) - 1))
        = List.getD [5, 7, 11, 13] (0 * 2 + 1) 0 ∧
      sampleHeightBilinear [5, 7, 11, 13] 2 (1 - ((1 : ℕ) : ℚ) / (((2 : ℕ) : ℚ) - 1))
          (1 - ((0 : ℕ) : ℚ) / (((2 : ℕ) : ℚ) - 1))
        = List.getD [5, 7, 11, 13] (0 * 2 + 1) 0) :=
  ⟨⟨le_refl 2, by decide, by decide⟩,
   C6_exact_at_sample_points [5, 7, 11, 13] 2 0 1 (by decide) (by decide) (by decide)⟩

/-! ### C10 — palette colours stay in the unit range -/

/-- All components of a colour lie in `[0, 1]`. -/
def colorInUnit (c : Color) : Prop :=
  0 ≤ c.r ∧ c.r ≤ 1 ∧ 0 ≤ c.g ∧ c.g ≤ 1 ∧ 0 ≤ c.b ∧ c.b ≤ 1

/-- `lerp` with endpoints in `[0, 1]` stays in `[0, 1]`: the interpolation
parameter is clamped to `[0, 1]`, making the result a convex combination. -/
theorem lerp_mem_unit {a b : ℚ} (t : ℚ) (ha0 : 0 ≤ a) (ha1 : a ≤ 1)
    (hb0 : 0 ≤ b) (hb1 : b ≤ 1) : 0 ≤ lerp a b t ∧ lerp a b t ≤ 1 := by
  unfold lerp
  have h0 : 0 ≤ max 0 (min 1 t) := le_max_left _ _
  have h1 : max 0 (min 1 t) ≤ 1 := max_le (by norm_num) (min_le_left _ _)
  constructor <;> nlinarith

/-- `lerpColor` of two unit-range colours is a unit-range colour. -/
theorem lerpColor_mem_unit {c1 c2 : Color} (t : ℚ)
    (h1 : colorInUnit c1) (h2 : colorInUnit c2) : colorInUnit (lerpColor c1 c2 t) := by
  obtain ⟨a1, a2, a3, a4, a5, a6⟩ := h1
  obtain ⟨b1, b2, b3, b4, b5, b6⟩ := h2
  exact ⟨(lerp_mem_unit t a1 a2 b1 b2).1, (lerp_mem_unit t a1 a2 b1 b2).2,
    (lerp_mem_unit t a3 a4 b3 b4).1, (lerp_mem_unit t a3 a4 b3 b4).2,
    (lerp_mem_unit t a5 a6 b5 b6).1, (lerp_mem_unit t a5 a6 b5 b6).2⟩

/-- Claim C10: for every (finite) height input, `_getTerrainColor` returns
`r`, `g`, `b` components each in `[0, 1]`: every band interpolates between
palette endpoints lying in `[0, 1]` with a clamped parameter. -/
theorem C10_color_components_in_unit_range (h : ℚ) :
    colorInUnit (getTerrainColor h) := by
  have hd : colorInUnit deepWater := by norm_num [colorInUnit, deepWater]
  have hsw : colorInUnit shallowWater := by norm_num [colorInUnit, shallowWater]
  have hb : colorInUnit beach := by norm_num [colorInUnit, beach]
  have hg : colorInUnit grass := by norm_num [colorInUnit, grass]
  have hf : colorInUnit forest := by norm_num [colorInUnit, forest]
  have hr : colorInUnit rock := by norm_num [colorInUnit, rock]
  have hs : colorInUnit snow := by norm_num [colorInUnit, snow]
  unfold getTerrainColor
  split_ifs
  · exact lerpColor_mem_unit _ hd hsw
  · exact lerpColor_mem_unit _ hsw hb
  · exact lerpColor_mem_unit _ hb hg
  · exact lerpColor_mem_unit _ hg hf
  · exact lerpColor_mem_unit _ hf hr
  · exact lerpColor_mem_unit _ hr hs
  · exact hs

/-! ### C7 — latitude clamping -/

open Real in
/-- Claim C7 is false as stated: the conversions perform no clamping, and at
latitude `90°` the divisor `METERS_PER_DEGREE · cos(centerLat·π/180)` used by
`worldToLonLat` *is* exactly zero — the division by zero the claim says is
prevented. -/
theorem C7_counterexample : metersPerDegreeLocal 90 = 0 := by
  unfold metersPerDegreeLocal
  rw [show (90 : ℝ) * π / 180 = π / 2 by ring, Real.cos_pi_div_two, mul_zero]

open Real in
/-- Claim C7 amended: no latitude clamping exists in the conversions (the
`[-85, 85]` bound is enforced only by the GUI slider for `centerLat`).
`worldToLonLat` divides by `metersPerDegreeLocal centerLat` verbatim; that
divisor is zero at `centerLat = ±90` (division by zero in real semantics),
and strictly positive for every latitude in the slider range `[-85, 85]`. -/
theorem C7_amended_no_clamping :
    (∀ centerLon centerLat worldX worldY : ℝ,
      (worldToLonLat centerLon centerLat worldX worldY).1
        = centerLon + worldX / metersPerDegreeLocal centerLat) ∧
    metersPerDegreeLocal 90 = 0 ∧ metersPerDegreeLocal (-90) = 0 ∧
    ∀ lat : ℝ, -85 ≤ lat → lat ≤ 85 → 0 < metersPerDegreeLocal lat := by
  refine ⟨fun _ _ _ _ => rfl, ?_, ?_, ?_⟩
  · unfold metersPerDegreeLocal
    rw [show (90 : ℝ) * π / 180 = π / 2 by ring, Real.cos_pi_div_two, mul_zero]
  · unfold metersPerDegreeLocal
    rw [show (-90 : ℝ) * π / 180 = -(π / 2) by ring, Real.cos_neg,
      Real.cos_pi_div_two, mul_zero]
  · intro lat h1 h2
    unfold metersPerDegreeLocal
    have hπ := Real.pi_pos
    have hcos : 0 < Real.cos (lat * π / 180) := by
      apply Real.cos_pos_of_mem_Ioo
      constructor
      · show -(π / 2) < lat * π / 180
        nlinarith
      · show lat * π / 180 < π / 2
        nlinarith
    positivity

/-- Witness for the amended C7 at latitude `0`. -/
theorem C7_witness :
    (-85 ≤ (0 : ℝ)) ∧ ((0 : ℝ) ≤ 85) ∧ 0 < metersPerDegreeLocal 0 :=
  ⟨by norm_num, by norm_num,
    C7_amended_no_clamping.2.2.2 0 (by norm_num) (by norm_num)⟩

/-! ### C8 — LOD tie-break -/

/-- Claim C8: when the camera distance to a node's centre exactly equals the
subdivision threshold `node.size * 2`, `_subdivideNode` does not subdivide
(the predicate is a strict `<`): the node itself is emitted when in view
range, and no children are visited. -/
theorem C8_tie_no_subdivision (fuel : ℕ) (node : QuadTreeNode)
    (camX camZ chunkSize viewDistance : ℝ)
    (htie : nodeDistance node camX camZ = node.size * 2) :
    subdivideNode (fuel + 1) node camX camZ chunkSize viewDistance
      = if nodeDistance node camX camZ < viewDistance + node.size
        then [node] else [] := by
  rw [subdivideNode]
  rw [if_neg]
  rintro ⟨hlt, -⟩
  rw [htie] at hlt
  exact lt_irrefl _ hlt

/-- Witness for C8: the unit node at the origin with the camera 2 units from
its centre (`√4 = 2 = size·2`) is not subdivided. -/
theorem C8_witness :
    nodeDistance ⟨0, 0, 1, 0⟩ 2.5 0.5 = (QuadTreeNode.mk 0 0 1 0).size * 2 ∧
    subdivideNode 1 ⟨0, 0, 1, 0⟩ 2.5 0.5 1 10
      = if nodeDistance ⟨0, 0, 1, 0⟩ 2.5 0.5 < 10 + (QuadTreeNode.mk 0 0 1 0).size
        then [⟨0, 0, 1, 0⟩] else [] := by
  have htie : nodeDistance ⟨0, 0, 1, 0⟩ 2.5 0.5 = (QuadTreeNode.mk 0 0 1 0).size * 2 := by
    simp only [nodeDistance, nodeCenter]
    rw [show ((0 : ℝ) + 1 / 2 - 2.5) ^ 2 + ((0 : ℝ) + 1 / 2 - 0.5) ^ 2 = 2 ^ 2 by norm_num]
    rw [Real.sqrt_sq (by norm_num : (0 : ℝ) ≤ 2)]
    norm_num
  exact ⟨htie, C8_tie_no_subdivision 0 ⟨0, 0, 1, 0⟩ 2.5 0.5 1 10 htie⟩

/-! ### Association-list helper lemmas -/

theorem lookup_eq_none_iff {α β : Type} [BEq α] [LawfulBEq α]
    (l : List (α × β)) (k : α) : l.lookup k = none ↔ k ∉ l.map Prod.fst := by
  induction l with
  | nil => simp
  | cons p t ih =>
    obtain ⟨a, b⟩ := p
    by_cases h : k = a
    · subst h; simp [List.lookup]
    · simp [List.lookup, beq_false_of_ne h, h, ih]

theorem lookup_eq_some_of_mem_nodup {α β : Type} [BEq α] [LawfulBEq α]
    {l : List (α × β)} {k : α} {v : β}
    (hmem : (k, v) ∈ l) (hnd : (l.map Prod.fst).Nodup) : l.lookup k = some v := by
  induction l with
  | nil => cases hmem
  | cons p t ih =>
    obtain ⟨a, b⟩ := p
    rcases List.mem_cons.mp hmem with heq | ht
    · obtain ⟨rfl, rfl⟩ := Prod.mk.injEq .. ▸ heq
      simp [List.lookup]
    · have hka : k ≠ a := by
        rintro rfl
        exact (List.nodup_cons.mp hnd).1 (List.mem_map.mpr ⟨(k, v), ht, rfl⟩)
      simpa [List.lookup, beq_false_of_ne hka] using
        ih ht (List.nodup_cons.mp hnd).2

theorem map_fst_filter_ne {α β : Type} [DecidableEq α] (l : List (α × β)) (k : α) :
    ((l.filter fun p => p.1 ≠ k).map Prod.fst)
      = (l.map Prod.fst).filter (fun a => a ≠ k) := by
  induction l with
  | nil => rfl
  | cons p t ih =>
    by_cases h : p.1 = k
    · rw [List.filter_cons_of_neg, List.map_cons, List.filter_cons_of_neg]
      · exact ih
      · simpa using h
      · simpa using h
    · rw [List.filter_cons_of_pos, List.map_cons, List.map_cons,
        List.filter_cons_of_pos, ih]
      · simpa using h
      · simpa using h

theorem lookup_filter_none {α β : Type} [BEq α] [LawfulBEq α]
    (l : List (α × β)) (p : α × β → Bool) (k : α)
    (h : l.lookup k = none) : (l.filter p).lookup k = none := by
  induction l with
  | nil => simp
  | cons q t ih =>
    obtain ⟨a, b⟩ := q
    by_cases hk : k = a
    · subst hk; simp [List.lookup] at h
    · rw [List.filter_cons]
      have ht : t.lookup k = none := by
        simpa [List.lookup, beq_false_of_ne hk] using h
      by_cases hp : p (a, b) <;> simp [List.lookup, beq_false_of_ne hk, hp, ih ht]

theorem lookup_map_overwrite_ne (m : List (TileKey × ℕ)) (k j : TileKey) (v : ℕ)
    (hne : j ≠ k) (h : m.lookup j = none) :
    (m.map (fun p => if p.1 = k then (k, v) else p)).lookup j = none := by
  induction m with
  | nil => rfl
  | cons q t ih =>
    obtain ⟨a, b⟩ := q
    by_cases hja : j = a
    · subst hja; simp [List.lookup] at h
    · have ht : t.lookup j = none := by
        simpa [List.lookup, beq_false_of_ne hja] using h
      rw [List.map_cons]
      by_cases hak : (a, b).1 = k
      · rw [if_pos hak]
        simpa [List.lookup, beq_false_of_ne hne] using ih ht
      · rw [if_neg hak]
        simpa [List.lookup, beq_false_of_ne hja] using ih ht

theorem lookup_append_singleton_ne (m : List (TileKey × ℕ)) (k j : TileKey) (v : ℕ)
    (hne : j ≠ k) (h : m.lookup j = none) : (m ++ [(k, v)]).lookup j = none := by
  induction m with
  | nil => simp [List.lookup, beq_false_of_ne hne]
  | cons q t ih =>
    obtain ⟨a, b⟩ := q
    by_cases hja : j = a
    · subst hja; simp [List.lookup] at h
    · have ht : t.lookup j = none := by
        simpa [List.lookup, beq_false_of_ne hja] using h
      simpa [List.lookup, beq_false_of_ne hja] using ih ht

theorem lookup_mapSet_ne (m : List (TileKey × ℕ)) (k j : TileKey) (v : ℕ)
    (hne : j ≠ k) (h : m.lookup j = none) : (mapSet m k v).lookup j = none := by
  unfold mapSet
  split
  · exact lookup_map_overwrite_ne m k j v hne h
  · exact lookup_append_singleton_ne m k j v hne h

theorem lookup_evictLoop_none (maxSize : ℕ) (order : List TileKey)
    (cache : List (TileKey × ℕ)) (j : TileKey) (h : cache.lookup j = none) :
    ((evictLoop maxSize cache order).1).lookup j = none := by
  induction order generalizing cache with
  | nil => simpa [evictLoop] using h
  | cons oldest rest ih =>
    rw [evictLoop]
    split
    · exact ih (mapDelete cache oldest) (lookup_filter_none _ _ _ h)
    · simpa using h

theorem lookup_cacheSet_none (k j : TileKey) (v : ℕ) (s : CacheState)
    (hne : j ≠ k) (h : s.cache.lookup j = none) :
    (cacheSet k v s).cache.lookup j = none := by
  unfold cacheSet
  exact lookup_mapSet_ne _ k j v hne
    (lookup_evictLoop_none s.maxSize s.accessOrder s.cache j h)

/-! ### C2 — in-flight load deduplication -/

/-- Provider invariant: at most one registered load per tile identity, and a
pending tile is never simultaneously resident in the cache. -/
def PInv (s : PState) : Prop :=
  (s.pending.map Prod.fst).Nodup ∧ ∀ p ∈ s.pending, s.cache.cache.lookup p.1 = none

theorem pStep_inv {s : PState} (hs : PInv s) (e : PEvent) : PInv (pStep s e) := by
  obtain ⟨hnd, hnc⟩ := hs
  cases e with
  | load k =>
    show PInv (loadTile k s).2
    unfold loadTile cacheGet
    cases h : s.cache.cache.lookup k with
    | some v => exact ⟨hnd, fun p hp => hnc p hp⟩
    | none =>
      cases h2 : s.pending.lookup k with
      | some pid => exact ⟨hnd, hnc⟩
      | none =>
        have hk : k ∉ s.pending.map Prod.fst := (lookup_eq_none_iff _ _).mp h2
        constructor
        · rw [List.map_append]
          simp only [List.nodup_append, List.map_cons, List.map_nil]
          exact ⟨hnd, List.nodup_singleton k,
            fun a ha => by simp only [List.mem_singleton]; rintro rfl; exact hk ha⟩
        · intro p hp
          rcases List.mem_append.mp hp with hp1 | hp2
          · exact hnc p hp1
          · obtain rfl : p = (k, s.nextId) := List.mem_singleton.mp hp2
            exact h
  | complete k d =>
    show PInv (completeLoad k d s)
    unfold completeLoad
    cases h2 : s.pending.lookup k with
    | none => exact ⟨hnd, hnc⟩
    | some pid =>
      constructor
      · rw [map_fst_filter_ne]
        exact hnd.filter _
      · intro p hp
        have hmem := List.mem_filter.mp hp
        have hpk : p.1 ≠ k := by simpa using hmem.2
        exact lookup_cacheSet_none k p.1 d s.cache hpk (hnc p hmem.1)

theorem runP_inv (cacheSize : ℕ) (events : List PEvent) :
    PInv (runP cacheSize events) := by
  suffices h : ∀ s, PInv s → PInv (events.foldl pStep s) by
    exact h _ ⟨List.nodup_nil, fun p hp => absurd hp (List.not_mem_nil p)⟩
  induction events with
  | nil => exact fun s hs => hs
  | cons e rest ih => exact fun s hs => ih _ (pStep_inv hs e)

/-- Claim C2: after any event sequence, at most one load is registered per
tile identity, and a `loadTile` call made while a load for `k` is in flight
returns exactly that pending promise (`joined pid` with the registered `pid`)
and leaves the provider state untouched — in particular it starts no second
fetch/decode. -/
theorem C2_single_inflight_dedup (cacheSize : ℕ) (events : List PEvent) :
    (((runP cacheSize events).pending.map Prod.fst).Nodup) ∧
    ∀ k pid, (k, pid) ∈ (runP cacheSize events).pending →
      loadTile k (runP cacheSize events)
        = (LoadAction.joined pid, runP cacheSize events) := by
  obtain ⟨hnd, hnc⟩ := runP_inv cacheSize events
  refine ⟨hnd, fun k pid hmem => ?_⟩
  have hcache : (runP cacheSize events).cache.cache.lookup k = none := hnc _ hmem
  have hpend : (runP cacheSize events).pending.lookup k = some pid :=
    lookup_eq_some_of_mem_nodup hmem hnd
  unfold loadTile cacheGet
  rw [hcache, hpend]

/-- Witness for C2: after one `load` of tile `(12, 0, 0)`, the load is
registered with promise id `0`, and a second call joins it. -/
theorem C2_witness :
    (((12, 0, 0), 0) ∈ (runP 256 [PEvent.load (12, 0, 0)]).pending) ∧
    loadTile (12, 0, 0) (runP 256 [PEvent.load (12, 0, 0)])
      = (LoadAction.joined 0, runP 256 [PEvent.load (12, 0, 0)]) :=
  ⟨by decide, (C2_single_inflight_dedup 256 [PEvent.load (12, 0, 0)]).2
    (12, 0, 0) 0 (by decide)⟩

/-! ### C9 — worker pool partition invariant -/

theorem filter_ne_eq_self_of_not_mem {β : Type} (busy : List (ℕ × β)) (w : ℕ)
    (hw : w ∉ busy.map Prod.fst) : busy.filter (fun p => p.1 ≠ w) = busy := by
  apply List.filter_eq_self.mpr
  intro p hp
  simp only [decide_eq_true_eq]
  intro heq
  exact hw (heq ▸ List.mem_map.mpr ⟨p, hp, rfl⟩)

/-- Dispatching in `_pump` preserves the free/busy partition: the multiset of
worker ids across `_free` and `_busy` is unchanged. -/
theorem pumpAux_perm {R : List ℕ} (hR : R.Nodup) :
    ∀ (q free : List ℕ) (busy : List (ℕ × ℕ)),
      (free ++ busy.map Prod.fst).Perm R →
      ((pumpAux free busy q).free ++ (pumpAux free busy q).busy.map Prod.fst).Perm R := by
  intro q
  induction q with
  | nil => exact fun free busy h => h
  | cons j rest ih =>
    intro free busy h
    cases hf : free.getLast? with
    | none => simpa [pumpAux, hf] using h
    | some w =>
      have hfree : free.dropLast ++ [w] = free :=
        List.dropLast_append_getLast? w (Option.mem_def.mpr hf)
      have hwmem : w ∈ free := by
        rw [← hfree]; exact List.mem_append_right _ (List.mem_singleton_self w)
      have hnd : (free ++ busy.map Prod.fst).Nodup := h.symm.nodup hR
      have hw : w ∉ busy.map Prod.fst := List.disjoint_of_nodup_append hnd hwmem
      have hbi : (busyInsert w j busy).map Prod.fst = w :: busy.map Prod.fst := by
        unfold busyInsert
        rw [List.map_cons, filter_ne_eq_self_of_not_mem busy w hw]
      have key : free.dropLast ++ (w :: busy.map Prod.fst)
          = free ++ busy.map Prod.fst := by
        conv_rhs => rw [← hfree]
        rw [List.append_assoc, List.singleton_append]
      simp only [pumpAux, hf]
      apply ih
      rw [hbi, key]
      exact h

/-- Completion in the worker callback preserves the partition. -/
theorem poolComplete_perm {R : List ℕ} (hR : R.Nodup) (w : ℕ) (s : PoolState)
    (h : (s.free ++ s.busy.map Prod.fst).Perm R) :
    ((poolComplete w s).free ++ (poolComplete w s).busy.map Prod.fst).Perm R := by
  unfold poolComplete
  split
  next hw =>
    apply pumpAux_perm hR
    have hwmem : w ∈ s.busy.map Prod.fst := by simpa using hw
    have hnd : (s.free ++ s.busy.map Prod.fst).Nodup := h.symm.nodup hR
    have hbnd : (s.busy.map Prod.fst).Nodup := (List.nodup_append.mp hnd).2.1
    have hbr : (busyRemove w s.busy).map Prod.fst
        = (s.busy.map Prod.fst).filter (fun a => a ≠ w) :=
      map_fst_filter_ne s.busy w
    have hfe : (s.busy.map Prod.fst).filter (fun a => a ≠ w)
        = (s.busy.map Prod.fst).erase w := by
      rw [hbnd.erase_eq_filter]
      apply List.filter_congr
      intro a _
      by_cases hax : a = w <;> simp [hax]
    have hperm : (s.busy.map Prod.fst).Perm (w :: (s.busy.map Prod.fst).erase w) :=
      List.perm_cons_erase hwmem
    have hstep : ((s.free ++ [w]) ++ (busyRemove w s.busy).map Prod.fst)
        = s.free ++ (w :: (s.busy.map Prod.fst).erase w) := by
      rw [hbr, hfe, List.append_assoc, List.singleton_append]
    rw [hstep]
    exact ((hperm.symm).append_left s.free).trans h
  next => exact h

theorem poolStep_perm {R : List ℕ} (hR : R.Nodup) (s : PoolState) (e : PoolEvent)
    (h : (s.free ++ s.busy.map Prod.fst).Perm R) :
    ((poolStep s e).free ++ (poolStep s e).busy.map Prod.fst).Perm R := by
  cases e with
  | enqueue j => exact pumpAux_perm hR _ _ _ h
  | complete w => exact poolComplete_perm hR w s h

theorem runPool_perm (n : ℕ) (events : List PoolEvent) :
    ((runPool n events).free ++ (runPool n events).busy.map Prod.fst).Perm
      (List.range n) := by
  suffices hl : ∀ s, (s.free ++ s.busy.map Prod.fst).Perm (List.range n) →
      (((events.foldl poolStep s).free
        ++ (events.foldl poolStep s).busy.map Prod.fst)).Perm (List.range n) by
    apply hl
    simp [poolInit]
  induction events with
  | nil => exact fun s h => h
  | cons e rest ih =>
    exact fun s h => ih _ (poolStep_perm (List.nodup_range n) s e h)

/-- Claim C9: after any sequence of enqueues and completions against a pool
of `n` workers, the worker ids across `_free` and `_busy` are exactly
`0 … n−1` with no duplication — every worker is in exactly one of the two —
so at most `n` jobs are dispatched concurrently, each busy worker holds
exactly one current job, and no free worker is simultaneously busy (dispatch
takes workers from `_free` only, so no worker receives a second job before
completing its current one). -/
theorem C9_pool_partition_invariant (n : ℕ) (events : List PoolEvent) :
    ((runPool n events).free ++ (runPool n events).busy.map Prod.fst).Perm
        (List.range n) ∧
    ((runPool n events).free ++ (runPool n events).busy.map Prod.fst).Nodup ∧
    (runPool n events).busy.length ≤ n ∧
    ∀ w, w ∈ (runPool n events).free → w ∉ (runPool n events).busy.map Prod.fst := by
  have hperm := runPool_perm n events
  have hnd : ((runPool n events).free ++ (runPool n events).busy.map Prod.fst).Nodup :=
    hperm.symm.nodup (List.nodup_range n)
  refine ⟨hperm, hnd, ?_, ?_⟩
  · have hlen := hperm.length_eq
    rw [List.length_append, List.length_range, List.length_map] at hlen
    omega
  · exact fun w hw => List.disjoint_of_nodup_append hnd hw

/-! ### C4 — discard of builds completing for removed keys -/

theorem mem_readyIds {rs : List (ChunkKey × ChunkRec)} {c : ℕ} :
    c ∈ readyIds rs ↔ ∃ p ∈ rs, p.2 = ChunkRec.ready c := by
  unfold readyIds
  rw [List.mem_filterMap]
  constructor
  · rintro ⟨p, hp, hmatch⟩
    refine ⟨p, hp, ?_⟩
    cases h2 : p.2 with
    | pending => rw [h2] at hmatch; cases hmatch
    | ready c0 =>
      rw [h2] at hmatch
      obtain rfl : c0 = c := by simpa using hmatch
      rfl
  · rintro ⟨p, hp, h2⟩
    exact ⟨p, hp, by rw [h2]⟩

/-- Records produced by the chunk-creation loop of `Update` are either kept
records or freshly marked `pending` for a desired key. -/
theorem mem_createFold {desired : List ChunkKey} :
    ∀ (acc : List (ChunkKey × ChunkRec)) (p : ChunkKey × ChunkRec),
      p ∈ desired.foldl (fun cs k =>
        if (cs.lookup k).isSome then cs else cs ++ [(k, ChunkRec.pending)]) acc →
      p ∈ acc ∨ (p.1 ∈ desired ∧ p.2 = ChunkRec.pending) := by
  induction desired with
  | nil => exact fun acc p hp => Or.inl hp
  | cons d rest ih =>
    intro acc p hp
    rcases ih _ p hp with hacc | hrest
    · by_cases hd : (acc.lookup d).isSome = true
      · simp only [hd, if_true] at hacc
        exact Or.inl hacc
      · simp only [hd, if_false] at hacc
        rcases List.mem_append.mp hacc with h1 | h2
        · exact Or.inl h1
        · obtain rfl := List.mem_singleton.mp h2
          exact Or.inr ⟨List.mem_cons_self d rest, rfl⟩
    · exact Or.inr ⟨List.mem_cons_of_mem d hrest.1, hrest.2⟩

/-- One `Update` frame whose desired set excludes `key` removes `key`'s
record, creates no `ready`-for-`c` record, and shows nothing with mesh id `c`
(given `c` was not visible and no resident record held it). -/
theorem updateFrame_preserves (poolBusy : Bool) (desired : List ChunkKey)
    (s : MState) (key : ChunkKey) (c : ℕ) (hkey : key ∉ desired)
    (hvis : c ∉ s.visible) (hrec : ∀ p ∈ s.chunks, p.2 ≠ ChunkRec.ready c) :
    c ∉ (updateFrame poolBusy desired s).visible ∧
    (∀ p ∈ (updateFrame poolBusy desired s).chunks, p.2 ≠ ChunkRec.ready c) ∧
    (updateFrame poolBusy desired s).chunks.lookup key = none := by
  have hcreated : ∀ p ∈ (updateFrame poolBusy desired s).chunks,
      (p ∈ s.chunks ∧ desired.contains p.1 = true) ∨
      (p.1 ∈ desired ∧ p.2 = ChunkRec.pending) := by
    intro p hp
    rcases mem_createFold _ p hp with hkept | hnew
    · exact Or.inl ⟨(List.mem_filter.mp hkept).1, (List.mem_filter.mp hkept).2⟩
    · exact Or.inr hnew
  have hrec' : ∀ p ∈ (updateFrame poolBusy desired s).chunks,
      p.2 ≠ ChunkRec.ready c := by
    intro p hp
    rcases hcreated p hp with ⟨hold, -⟩ | ⟨-, hpend⟩
    · exact hrec p hold
    · rw [hpend]; exact fun hcontra => ChunkRec.noConfusion hcontra
  refine ⟨?_, hrec', ?_⟩
  · intro hmem
    rcases List.mem_append.mp hmem with h1 | h2
    · exact hvis (List.mem_filter.mp h1).1
    · obtain ⟨p, hp, h2⟩ := mem_readyIds.mp h2
      exact hrec' p hp h2
  · rw [lookup_eq_none_iff]
    intro hmem
    obtain ⟨p, hp, hfst⟩ := List.mem_map.mp hmem
    rcases hcreated p hp with ⟨-, hcont⟩ | ⟨hdes, -⟩
    · exact hkey (hfst ▸ (by simpa using hcont : p.1 ∈ desired))
    · exact hkey (hfst ▸ hdes)

/-- Completion for a key with no resident record destroys the mesh and
touches nothing else. -/
theorem completeBuild_absent (key : ChunkKey) (c : ℕ) (s : MState)
    (habs : s.chunks.lookup key = none) :
    completeBuild key c s = { s with destroyed := c :: s.destroyed } := by
  unfold completeBuild
  rw [habs]
  rfl

/-- Claim C4: if `key`'s chunk is removed (its key leaves the desired set
while the build is `Pending`) and every later frame also excludes `key`,
then when the build completes its mesh `c` is destroyed, is never shown, and
no record for `key` exists — the completed result would be shown only had the
key still been resident at completion time (which is exactly the
`if (this._chunks[key])` test of the completion handler). -/
theorem C4_discard_on_arrival (s0 : MState) (key : ChunkKey) (c : ℕ)
    (f0 : Bool × List ChunkKey) (frames : List (Bool × List ChunkKey))
    (hkey0 : key ∉ f0.2) (hkeys : ∀ f ∈ frames, key ∉ f.2)
    (hvis : c ∉ s0.visible) (hrec : ∀ p ∈ s0.chunks, p.2 ≠ ChunkRec.ready c) :
    c ∉ (completeBuild key c (frames.foldl (fun s f => updateFrame f.1 f.2 s)
          (updateFrame f0.1 f0.2 s0))).visible ∧
    c ∈ (completeBuild key c (frames.foldl (fun s f => updateFrame f.1 f.2 s)
          (updateFrame f0.1 f0.2 s0))).destroyed ∧
    (completeBuild key c (frames.foldl (fun s f => updateFrame f.1 f.2 s)
          (updateFrame f0.1 f0.2 s0))).chunks.lookup key = none := by
  have hQ : ∀ (fs : List (Bool × List ChunkKey)) (s : MState),
      (∀ f ∈ fs, key ∉ f.2) →
      (c ∉ s.visible ∧ (∀ p ∈ s.chunks, p.2 ≠ ChunkRec.ready c) ∧
        s.chunks.lookup key = none) →
      (c ∉ (fs.foldl (fun s f => updateFrame f.1 f.2 s) s).visible ∧
       (∀ p ∈ (fs.foldl (fun s f => updateFrame f.1 f.2 s) s).chunks,
          p.2 ≠ ChunkRec.ready c) ∧
       (fs.foldl (fun s f => updateFrame f.1 f.2 s) s).chunks.lookup key = none) := by
    intro fs
    induction fs with
    | nil => exact fun s _ hq => hq
    | cons f rest ih =>
      intro s hks hq
      apply ih
      · exact fun g hg => hks g (List.mem_cons_of_mem f hg)
      · obtain ⟨h1, h2, -⟩ := hq
        exact updateFrame_preserves f.1 f.2 s key c
          (hks f (List.mem_cons_self f rest)) h1 h2
  have hs1 := hQ frames (updateFrame f0.1 f0.2 s0) hkeys
    (updateFrame_preserves f0.1 f0.2 s0 key c hkey0 hvis hrec)
  obtain ⟨h1, -, h3⟩ := hs1
  rw [completeBuild_absent key c _ h3]
  exact ⟨h1, List.mem_cons_self c _, h3⟩

/-- Witness for C4: a single-record state whose pending key `(0,0,1000)` is
removed by one frame with an empty desired set; the later completion with
mesh id `7` destroys the mesh without showing it. -/
theorem C4_witness :
    ((0, 0, 1000) ∉ (false, ([] : List ChunkKey)).2) ∧
    (7 ∉ (MState.mk [((0, 0, 1000), ChunkRec.pending)] [] [] []).visible) ∧
    (7 ∉ (completeBuild (0, 0, 1000) 7 (([] : List (Bool × List ChunkKey)).foldl
        (fun s f => updateFrame f.1 f.2 s)
        (updateFrame (false, ([] : List ChunkKey)).1 (false, ([] : List ChunkKey)).2
          (MState.mk [((0, 0, 1000), ChunkRec.pending)] [] [] [])))).visible ∧
     7 ∈ (completeBuild (0, 0, 1000) 7 (([] : List (Bool × List ChunkKey)).foldl
        (fun s f => updateFrame f.1 f.2 s)
        (updateFrame (false, ([] : List ChunkKey)).1 (false, ([] : List ChunkKey)).2
          (MState.mk [((0, 0, 1000), ChunkRec.pending)] [] [] [])))).destroyed ∧
     (completeBuild (0, 0, 1000) 7 (([] : List (Bool × List ChunkKey)).foldl
        (fun s f => updateFrame f.1 f.2 s)
        (updateFrame (false, ([] : List ChunkKey)).1 (false, ([] : List ChunkKey)).2
          (MState.mk [((0, 0, 1000), ChunkRec.pending)] [] [] [])))).chunks.lookup
        (0, 0, 1000) = none) :=
  ⟨by decide, by decide,
    C4_discard_on_arrival (MState.mk [((0, 0, 1000), ChunkRec.pending)] [] [] [])
      (0, 0, 1000) 7 (false, []) [] (by decide)
      (fun f hf => absurd hf (List.not_mem_nil f)) (by decide) (by decide)⟩

/-! ### C3 — cache size bound and eviction order -/

/-- Structural facts about the eviction loop, assuming every resident key
occurs in the access order: the resulting cache keys are still unique and
listed in the surviving order; the evicted keys followed by the surviving
order reconstitute the original order; eviction stops below capacity (or
with an empty cache); and no entry is added. -/
theorem evictLoop_spec (maxSize : ℕ) :
    ∀ (order : List TileKey) (cache : List (TileKey × ℕ)),
      (cache.map Prod.fst).Nodup → (∀ p ∈ cache, p.1 ∈ order) →
      (((evictLoop maxSize cache order).1.map Prod.fst).Nodup ∧
       (∀ p ∈ (evictLoop maxSize cache order).1, p.1 ∈ (evictLoop maxSize cache order).2.1) ∧
       (evictLoop maxSize cache order).2.2 ++ (evictLoop maxSize cache order).2.1 = order ∧
       ((evictLoop maxSize cache order).1.length < maxSize ∨
         (evictLoop maxSize cache order).1 = []) ∧
       (∀ p ∈ (evictLoop maxSize cache order).1, p ∈ cache)) := by
  intro order
  induction order with
  | nil =>
    intro cache hnd hmem
    have hempty : cache = [] := by
      cases cache with
      | nil => rfl
      | cons p t => exact absurd (hmem p (List.mem_cons_self p t)) (List.not_mem_nil p.1)
    subst hempty
    exact ⟨List.nodup_nil, fun p hp => absurd hp (List.not_mem_nil p),
      rfl, Or.inr rfl, fun p hp => hp⟩
  | cons oldest rest ih =>
    intro cache hnd hmem
    rw [evictLoop]
    by_cases hcap : maxSize ≤ cache.length
    · rw [if_pos hcap]
      have hnd' : ((mapDelete cache oldest).map Prod.fst).Nodup := by
        unfold mapDelete
        rw [map_fst_filter_ne]
        exact hnd.filter _
      have hmem' : ∀ p ∈ mapDelete cache oldest, p.1 ∈ rest := by
        intro p hp
        have h1 := (List.mem_filter.mp hp).1
        have h2 : p.1 ≠ oldest := by simpa using (List.mem_filter.mp hp).2
        rcases List.mem_cons.mp (hmem p h1) with heq | ht
        · exact absurd heq h2
        · exact ht
      obtain ⟨a, b, c, d, e⟩ := ih (mapDelete cache oldest) hnd' hmem'
      exact ⟨a, b, by rw [List.cons_append, c], d,
        fun p hp => (List.mem_filter.mp (e p hp)).1⟩
    · rw [if_neg hcap]
      exact ⟨hnd, hmem, rfl, Or.inl (Nat.lt_of_not_le hcap), fun p hp => hp⟩

/-- Weak cache invariant: resident keys are unique and every resident key is
listed in the access order. -/
def WInv (s : CacheState) : Prop :=
  (s.cache.map Prod.fst).Nodup ∧ ∀ p ∈ s.cache, p.1 ∈ s.accessOrder

theorem map_fst_overwrite (m : List (TileKey × ℕ)) (k : TileKey) (v : ℕ) :
    (m.map (fun p => if p.1 = k then (k, v) else p)).map Prod.fst
      = m.map Prod.fst := by
  induction m with
  | nil => rfl
  | cons q t iht =>
    rw [List.map_cons, List.map_cons, List.map_cons, iht]
    by_cases hq : q.1 = k
    · rw [if_pos hq, hq]
    · rw [if_neg hq]

theorem mapSet_map_fst (m : List (TileKey × ℕ)) (k : TileKey) (v : ℕ) :
    (mapSet m k v).map Prod.fst
      = if mapHas m k then m.map Prod.fst else m.map Prod.fst ++ [k] := by
  unfold mapSet
  split
  · exact map_fst_overwrite m k v
  · simp

theorem mapSet_nodup (m : List (TileKey × ℕ)) (k : TileKey) (v : ℕ)
    (h : (m.map Prod.fst).Nodup) : ((mapSet m k v).map Prod.fst).Nodup := by
  rw [mapSet_map_fst]
  split
  · exact h
  · next hhas =>
    have hk : k ∉ m.map Prod.fst := by
      rw [← lookup_eq_none_iff]
      revert hhas
      unfold mapHas
      cases m.lookup k <;> simp
    rw [List.nodup_append]
    exact ⟨h, List.nodup_singleton k, fun a haa => by
      simp only [List.mem_singleton]; rintro rfl; exact hk haa⟩

theorem mapSet_fst_subset (m : List (TileKey × ℕ)) (k : TileKey) (v : ℕ)
    (order : List TileKey) (hm : ∀ p ∈ m, p.1 ∈ order) :
    ∀ p ∈ mapSet m k v, p.1 ∈ order ++ [k] := by
  intro p hp
  unfold mapSet at hp
  by_cases hhas : mapHas m k = true
  · rw [if_pos hhas] at hp
    obtain ⟨q, hq, hqe⟩ := List.mem_map.mp hp
    by_cases hqk : q.1 = k
    · rw [if_pos hqk] at hqe
      exact List.mem_append_right _ (by rw [← hqe]; exact List.mem_singleton_self k)
    · rw [if_neg hqk] at hqe
      exact List.mem_append_left _ (hqe ▸ hm q hq)
  · rw [if_neg hhas] at hp
    rcases List.mem_append.mp hp with h1 | h2
    · exact List.mem_append_left _ (hm p h1)
    · obtain rfl := List.mem_singleton.mp h2
      exact List.mem_append_right _ (List.mem_singleton_self k)

theorem mapSet_length_le (m : List (TileKey × ℕ)) (k : TileKey) (v : ℕ) :
    (mapSet m k v).length ≤ m.length + 1 := by
  unfold mapSet
  split
  · rw [List.length_map]; omega
  · rw [List.length_append]; simp

theorem cacheGet_winv (k : TileKey) (s : CacheState) (h : WInv s) :
    WInv (cacheGet k s).2 := by
  unfold cacheGet
  cases hl : s.cache.lookup k with
  | none => exact h
  | some v =>
    refine ⟨h.1, fun p hp => ?_⟩
    by_cases hpk : p.1 = k
    · exact List.mem_append_right _ (hpk ▸ List.mem_singleton_self k)
    · exact List.mem_append_left _ ((List.mem_erase_of_ne hpk).mpr (h.2 p hp))

theorem cacheSet_winv (k : TileKey) (v : ℕ) (s : CacheState) (h : WInv s) :
    WInv (cacheSet k v s) ∧
      (1 ≤ s.maxSize → (cacheSet k v s).cache.length ≤ s.maxSize) := by
  obtain ⟨ha, hb, hc, hstop, hsub⟩ :=
    evictLoop_spec s.maxSize s.accessOrder s.cache h.1 h.2
  have hcache : (cacheSet k v s).cache
      = mapSet (evictLoop s.maxSize s.cache s.accessOrder).1 k v := rfl
  have horder : (cacheSet k v s).accessOrder
      = (evictLoop s.maxSize s.cache s.accessOrder).2.1 ++ [k] := rfl
  refine ⟨⟨?_, ?_⟩, ?_⟩
  · rw [hcache]
    exact mapSet_nodup _ k v ha
  · intro p hp
    rw [hcache] at hp
    rw [horder]
    exact mapSet_fst_subset _ k v _ hb p hp
  · intro h1
    rw [hcache]
    have hlen := mapSet_length_le (evictLoop s.maxSize s.cache s.accessOrder).1 k v
    rcases hstop with hlt | hnil
    · omega
    · rw [hnil]
      have hone : (mapSet ([] : List (TileKey × ℕ)) k v).length = 1 := rfl
      omega

theorem applyOp_winv (s : CacheState) (op : CacheOp) (h : WInv s) :
    WInv (applyOp s op) := by
  cases op with
  | get k => exact cacheGet_winv k s h
  | set k v => exact (cacheSet_winv k v s h).1

theorem cacheGet_cache_eq (k : TileKey) (s : CacheState) :
    (cacheGet k s).2.cache = s.cache := by
  unfold cacheGet
  cases s.cache.lookup k <;> rfl

theorem cacheGet_maxSize (k : TileKey) (s : CacheState) :
    (cacheGet k s).2.maxSize = s.maxSize := by
  unfold cacheGet
  cases s.cache.lookup k <;> rfl

theorem applyOp_maxSize (s : CacheState) (op : CacheOp) :
    (applyOp s op).maxSize = s.maxSize := by
  cases op with
  | get k => exact cacheGet_maxSize k s
  | set k v => rfl

/-- The resident-count bound holds after every operation sequence. -/
theorem runCache_size (maxSize : ℕ) (h1 : 1 ≤ maxSize) (ops : List CacheOp) :
    (runCache maxSize ops).cache.length ≤ maxSize := by
  suffices hl : ∀ s, WInv s → s.maxSize = maxSize → s.cache.length ≤ maxSize →
      (WInv (ops.foldl applyOp s) ∧ (ops.foldl applyOp s).maxSize = maxSize ∧
        (ops.foldl applyOp s).cache.length ≤ maxSize) by
    exact (hl ⟨[], [], maxSize⟩
      ⟨List.nodup_nil, fun p hp => absurd hp (List.not_mem_nil p)⟩ rfl (by simp)).2.2
  induction ops with
  | nil => exact fun s hw hm hlen => ⟨hw, hm, hlen⟩
  | cons op rest ih =>
    intro s hw hm hlen
    apply ih
    · exact applyOp_winv s op hw
    · rw [applyOp_maxSize, hm]
    · cases op with
      | get k =>
        show ((cacheGet k s).2.cache.length ≤ maxSize)
        rw [cacheGet_cache_eq]
        exact hlen
      | set k v =>
        have hle := (cacheSet_winv k v s hw).2 (hm ▸ h1)
        rw [hm] at hle
        exact hle

theorem mapHas_iff (m : List (TileKey × ℕ)) (k : TileKey) :
    mapHas m k = true ↔ k ∈ m.map Prod.fst := by
  unfold mapHas
  cases hl : m.lookup k with
  | none => simp [(lookup_eq_none_iff m k).mp hl]
  | some v =>
    simp only [Option.isSome_some, true_iff]
    by_contra hk
    rw [(lookup_eq_none_iff m k).mpr hk] at hl
    cases hl

theorem mapHas_of_mem {m : List (TileKey × ℕ)} {p : TileKey × ℕ} (hp : p ∈ m) :
    mapHas m p.1 = true :=
  (mapHas_iff m p.1).mpr (List.mem_map.mpr ⟨p, hp, rfl⟩)

theorem lookup_mapDelete_ne (m : List (TileKey × ℕ)) (k0 j : TileKey)
    (hne : j ≠ k0) : (mapDelete m k0).lookup j = m.lookup j := by
  unfold mapDelete
  induction m with
  | nil => rfl
  | cons q t ih =>
    obtain ⟨a, b⟩ := q
    rw [List.filter_cons]
    by_cases hak : a = k0
    · rw [if_neg (by simp [hak])]
      have hja : j ≠ a := fun he => hne (he.trans hak)
      rw [ih]
      simp [List.lookup, beq_false_of_ne hja]
    · rw [if_pos (by simp [hak])]
      by_cases hja : j = a
      · subst hja; simp [List.lookup]
      · simp only [List.lookup, beq_false_of_ne hja]
        exact ih

/-- Keys not shifted off by the eviction loop keep their cache binding. -/
theorem evictLoop_lookup_of_not_evicted (maxSize : ℕ) :
    ∀ (order : List TileKey) (cache : List (TileKey × ℕ)) (j : TileKey),
      j ∉ (evictLoop maxSize cache order).2.2 →
      (evictLoop maxSize cache order).1.lookup j = cache.lookup j := by
  intro order
  induction order with
  | nil => exact fun cache j _ => rfl
  | cons oldest rest ih =>
    intro cache j h
    by_cases hcap : maxSize ≤ cache.length
    · simp only [evictLoop, if_pos hcap] at h ⊢
      have hjo : j ≠ oldest := fun he => h (he ▸ List.mem_cons_self _ _)
      have hjrest : j ∉ (evictLoop maxSize (mapDelete cache oldest) rest).2.2 :=
        fun hm => h (List.mem_cons_of_mem _ hm)
      rw [ih (mapDelete cache oldest) j hjrest]
      exact lookup_mapDelete_ne cache oldest j hjo
    · simp only [evictLoop, if_neg hcap]

/-- Strong instrumented invariant: the access order lists exactly the
resident keys, without duplicates, sorted by strictly increasing last-access
clock, all below the current clock. -/
def IInv (t : ICache) : Prop :=
  t.st.accessOrder.Nodup ∧
  (t.st.cache.map Prod.fst).Nodup ∧
  (∀ j : TileKey, mapHas t.st.cache j = true ↔ j ∈ t.st.accessOrder) ∧
  t.st.accessOrder.Pairwise (fun a b => t.la a < t.la b) ∧
  (∀ j ∈ t.st.accessOrder, t.la j < t.clock)

theorem applyOpI_get_hit (t : ICache) (k : TileKey) (v : ℕ)
    (hl : t.st.cache.lookup k = some v) :
    applyOpI t (CacheOp.get k)
      = ⟨⟨t.st.cache, t.st.accessOrder.erase k ++ [k], t.st.maxSize⟩,
          Function.update t.la k t.clock, t.clock + 1⟩ := by
  simp only [applyOpI]
  unfold cacheGet mapHas
  rw [hl]
  rfl

theorem applyOpI_get_miss (t : ICache) (k : TileKey)
    (hl : t.st.cache.lookup k = none) :
    applyOpI t (CacheOp.get k) = ⟨t.st, t.la, t.clock + 1⟩ := by
  simp only [applyOpI]
  unfold cacheGet mapHas
  rw [hl]
  rfl

theorem applyOpI_set_eq (t : ICache) (k : TileKey) (v : ℕ) :
    applyOpI t (CacheOp.set k v)
      = ⟨cacheSet k v t.st, Function.update t.la k t.clock, t.clock + 1⟩ := rfl

/-- A resident `get` preserves the strong invariant: the hit key moves to the
end of the access order with a fresh access clock. -/
theorem IInv_get (t : ICache) (k : TileKey) (h : IInv t) :
    IInv (applyOpI t (CacheOp.get k)) := by
  obtain ⟨hord, hknd, hiff, hpw, hbound⟩ := h
  cases hl : t.st.cache.lookup k with
  | none =>
    rw [applyOpI_get_miss t k hl]
    exact ⟨hord, hknd, hiff, hpw, fun j hj => Nat.lt_succ_of_lt (hbound j hj)⟩
  | some v =>
    rw [applyOpI_get_hit t k v hl]
    have hkmem : k ∈ t.st.accessOrder := (hiff k).mp (by unfold mapHas; rw [hl]; rfl)
    have hknotin : k ∉ t.st.accessOrder.erase k :=
      fun hmem => ((hord.mem_erase_iff).mp hmem).1 rfl
    have herasene : ∀ a ∈ t.st.accessOrder.erase k, a ≠ k :=
      fun a ha => ((hord.mem_erase_iff).mp ha).1
    refine ⟨?_, hknd, ?_, ?_, ?_⟩
    · rw [List.nodup_append]
      refine ⟨hord.erase k, List.nodup_singleton k, fun a ha => ?_⟩
      simp only [List.mem_singleton]
      rintro rfl
      exact hknotin ha
    · intro j
      refine (hiff j).trans ?_
      by_cases hjk : j = k
      · subst hjk
        simp [hkmem]
      · rw [List.mem_append]
        simp [List.mem_erase_of_ne hjk, hjk]
    · show (t.st.accessOrder.erase k ++ [k]).Pairwise
        (fun a b => Function.update t.la k t.clock a < Function.update t.la k t.clock b)
      rw [List.pairwise_append]
      refine ⟨?_, List.pairwise_singleton _ _, ?_⟩
      · refine (hpw.sublist (List.erase_sublist k t.st.accessOrder)).imp_of_mem ?_
        intro a b ha hb hr
        show Function.update t.la k t.clock a < Function.update t.la k t.clock b
        rw [Function.update_noteq (herasene a ha), Function.update_noteq (herasene b hb)]
        exact hr
      · intro a ha b hb
        obtain rfl := List.mem_singleton.mp hb
        show Function.update t.la b t.clock a < Function.update t.la b t.clock b
        rw [Function.update_noteq (herasene a ha), Function.update_same]
        exact hbound a ((List.erase_sublist b t.st.accessOrder).mem ha)
    · intro j hj
      show Function.update t.la k t.clock j < t.clock + 1
      rcases List.mem_append.mp hj with h1 | h2
      · rw [Function.update_noteq (herasene j h1)]
        exact Nat.lt_succ_of_lt (hbound j ((List.erase_sublist k t.st.accessOrder).mem h1))
      · obtain rfl := List.mem_singleton.mp h2
        rw [Function.update_same]
        exact Nat.lt_succ_self _

/-- A `set` of a non-resident key preserves the strong invariant: evictions
take a prefix of the access order, the new key joins at the end. -/
theorem IInv_set (t : ICache) (k : TileKey) (v : ℕ) (h : IInv t)
    (hfresh : mapHas t.st.cache k = false) :
    IInv (applyOpI t (CacheOp.set k v)) := by
  obtain ⟨hord, hknd, hiff, hpw, hbound⟩ := h
  rw [applyOpI_set_eq]
  have hwmem : ∀ p ∈ t.st.cache, p.1 ∈ t.st.accessOrder :=
    fun p hp => (hiff p.1).mp (mapHas_of_mem hp)
  obtain ⟨ha, hb, hc, hstop, hsub⟩ :=
    evictLoop_spec t.st.maxSize t.st.accessOrder t.st.cache hknd hwmem
  have hknotord : k ∉ t.st.accessOrder := by
    intro hm
    rw [(hiff k).mpr hm] at hfresh
    cases hfresh
  have hsurv_sub : (evictLoop t.st.maxSize t.st.cache t.st.accessOrder).2.1.Sublist
      t.st.accessOrder := by
    nth_rewrite 2 [← hc]
    exact List.sublist_append_right _ _
  have hkns : k ∉ (evictLoop t.st.maxSize t.st.cache t.st.accessOrder).2.1 :=
    fun hm => hknotord (hsurv_sub.mem hm)
  have hsurvne : ∀ a ∈ (evictLoop t.st.maxSize t.st.cache t.st.accessOrder).2.1,
      a ≠ k := fun a ha he => hkns (he ▸ ha)
  have hfresh1 : mapHas (evictLoop t.st.maxSize t.st.cache t.st.accessOrder).1 k
      = false := by
    cases hcase : mapHas (evictLoop t.st.maxSize t.st.cache t.st.accessOrder).1 k with
    | false => rfl
    | true =>
      obtain ⟨p, hp, hpk⟩ := List.mem_map.mp ((mapHas_iff _ k).mp hcase)
      rw [← hpk] at hfresh
      rw [mapHas_of_mem (hsub p hp)] at hfresh
      cases hfresh
  have hlookup1 : (evictLoop t.st.maxSize t.st.cache t.st.accessOrder).1.lookup k
      = none := by
    revert hfresh1
    unfold mapHas
    cases (evictLoop t.st.maxSize t.st.cache t.st.accessOrder).1.lookup k <;> simp
  have hcache : (cacheSet k v t.st).cache
      = (evictLoop t.st.maxSize t.st.cache t.st.accessOrder).1 ++ [(k, v)] := by
    show mapSet _ k v = _
    unfold mapSet
    rw [if_neg (by rw [hfresh1]; exact fun hcontra => Bool.noConfusion hcontra)]
  have horder : (cacheSet k v t.st).accessOrder
      = (evictLoop t.st.maxSize t.st.cache t.st.accessOrder).2.1 ++ [k] := rfl
  have hevne : ∀ j, j ∈ (evictLoop t.st.maxSize t.st.cache t.st.accessOrder).2.1 →
      j ∉ (evictLoop t.st.maxSize t.st.cache t.st.accessOrder).2.2 := by
    have hnd2 : ((evictLoop t.st.maxSize t.st.cache t.st.accessOrder).2.2
        ++ (evictLoop t.st.maxSize t.st.cache t.st.accessOrder).2.1).Nodup := by
      rw [hc]
      exact hord
    intro j hj1 hj2
    exact List.disjoint_of_nodup_append hnd2 hj2 hj1
  constructor
  · -- Nodup of the new access order
    rw [horder, List.nodup_append]
    refine ⟨hsurv_sub.nodup hord, List.nodup_singleton k, fun a haa => ?_⟩
    simp only [List.mem_singleton]
    rintro rfl
    exact hkns haa
  refine ⟨?_, ?_, ?_, ?_⟩
  · -- Nodup cache keys
    show ((cacheSet k v t.st).cache.map Prod.fst).Nodup
    exact mapSet_nodup _ k v ha
  · -- membership iff
    intro j
    show mapHas (cacheSet k v t.st).cache j = true ↔ j ∈ (cacheSet k v t.st).accessOrder
    rw [hcache, horder, mapHas_iff, List.map_append, List.map_singleton]
    simp only [List.mem_append, List.mem_singleton]
    constructor
    · rintro (h1 | h2)
      · obtain ⟨p, hp, hpk⟩ := List.mem_map.mp h1
        exact Or.inl (hpk ▸ hb p hp)
      · exact Or.inr h2
    · rintro (h1 | h2)
      · refine Or.inl ?_
        have hj1 : mapHas t.st.cache j = true :=
          (hiff j).mpr (hsurv_sub.mem h1)
        have hj2 : (evictLoop t.st.maxSize t.st.cache t.st.accessOrder).1.lookup j
            = t.st.cache.lookup j :=
          evictLoop_lookup_of_not_evicted t.st.maxSize t.st.accessOrder t.st.cache j
            (hevne j h1)
        have hj3 : mapHas (evictLoop t.st.maxSize t.st.cache t.st.accessOrder).1 j
            = true := by
          unfold mapHas at hj1 ⊢
          rw [hj2]
          exact hj1
        exact (mapHas_iff _ j).mp hj3
      · exact Or.inr h2
  · -- sortedness by last access
    show ((cacheSet k v t.st).accessOrder).Pairwise
      (fun a b => Function.update t.la k t.clock a < Function.update t.la k t.clock b)
    rw [horder, List.pairwise_append]
    refine ⟨?_, List.pairwise_singleton _ _, ?_⟩
    · refine (hpw.sublist hsurv_sub).imp_of_mem ?_
      intro a b haa hbb hr
      rw [Function.update_noteq (hsurvne a haa), Function.update_noteq (hsurvne b hbb)]
      exact hr
    · intro a haa b hbb
      obtain rfl := List.mem_singleton.mp hbb
      rw [Function.update_noteq (hsurvne a haa), Function.update_same]
      exact hbound a (hsurv_sub.mem haa)
  · -- clock bound
    intro j hj
    show Function.update t.la k t.clock j < t.clock + 1
    rw [horder] at hj
    rcases List.mem_append.mp hj with h1 | h2
    · rw [Function.update_noteq (hsurvne j h1)]
      exact Nat.lt_succ_of_lt (hbound j (hsurv_sub.mem h1))
    · obtain rfl := List.mem_singleton.mp h2
      rw [Function.update_same]
      exact Nat.lt_succ_self _

/-- The instrumented run tracks the real cache run exactly. -/
theorem runCacheI_st (maxSize : ℕ) (ops : List CacheOp) :
    (runCacheI maxSize ops).st = runCache maxSize ops := by
  suffices hl : ∀ t : ICache, (ops.foldl applyOpI t).st = ops.foldl applyOp t.st by
    exact hl _
  induction ops with
  | nil => exact fun t => rfl
  | cons op rest ih =>
    intro t
    rw [List.foldl_cons, List.foldl_cons, ih]
    congr 1
    cases op with
    | get k =>
      show (cacheGet k t.st).2 = applyOp t.st (CacheOp.get k)
      rfl
    | set k v => rfl

theorem freshSets_append (maxSize : ℕ) (ops : List CacheOp) (op : CacheOp)
    (h : FreshSets maxSize (ops ++ [op])) :
    FreshSets maxSize ops
      ∧ opFreshAt maxSize (ops ++ [op]) ops.length = true := by
  constructor
  · intro i hi
    have h2 := h i (by
      simp only [List.length_append, List.length_cons, List.length_nil]
      omega)
    unfold opFreshAt at h2 ⊢
    rw [List.getElem?_append_left hi] at h2
    rw [List.take_append_of_le_length (Nat.le_of_lt hi)] at h2
    exact h2
  · exact h ops.length (by
      simp only [List.length_append, List.length_cons, List.length_nil]
      omega)

/-- The strong invariant holds after any run whose `set`s all insert
non-resident keys. -/
theorem IInv_run (maxSize : ℕ) (ops : List CacheOp) (hf : FreshSets maxSize ops) :
    IInv (runCacheI maxSize ops) := by
  induction ops using List.reverseRecOn with
  | nil =>
    refine ⟨List.nodup_nil, List.nodup_nil, fun j => ?_, List.Pairwise.nil,
      fun j hj => absurd hj (List.not_mem_nil j)⟩
    show mapHas [] j = true ↔ j ∈ ([] : List TileKey)
    constructor
    · intro hcontra; cases hcontra
    · intro hcontra; cases hcontra
  | append_singleton ops op ih =>
    obtain ⟨h1, h2⟩ := freshSets_append maxSize ops op hf
    have hinv := ih h1
    have hrun : runCacheI maxSize (ops ++ [op])
        = applyOpI (runCacheI maxSize ops) op := by
      unfold runCacheI
      rw [List.foldl_append]
      rfl
    rw [hrun]
    cases op with
    | get k => exact IInv_get _ k hinv
    | set k v =>
      apply IInv_set _ k v hinv
      unfold opFreshAt at h2
      rw [List.getElem?_concat_length] at h2
      rw [List.take_append_of_le_length (le_refl ops.length), List.take_length] at h2
      have h3 : (!mapHas (runCache maxSize ops).cache k) = true := h2
      rw [runCacheI_st]
      simpa using h3

/-- Claim C3 amended: (a) the resident count never exceeds `maxSize` after
any operation sequence (for `maxSize ≥ 1`); (b) the LRU-eviction clause holds
*provided* no `set` ever re-inserts an already-resident key (as in
`loadTile`'s usage): then at the next `set`, the evicted keys and the
surviving order are jointly sorted by last access, so each eviction removes
the least recently accessed resident at its moment.  (Without that proviso,
a `set` of a resident key duplicates its access-order entry and a later
eviction can remove a non-LRU resident — see the counterexample.) -/
theorem C3_amended_lru (maxSize : ℕ) (h1 : 1 ≤ maxSize) :
    (∀ ops : List CacheOp, (runCache maxSize ops).cache.length ≤ maxSize) ∧
    (∀ ops : List CacheOp, FreshSets maxSize ops →
      (cacheSetEvicted (runCache maxSize ops)
          ++ cacheSetSurvivors (runCache maxSize ops)).Pairwise
        (fun a b => (runCacheI maxSize ops).la a ≤ (runCacheI maxSize ops).la b)) := by
  refine ⟨fun ops => runCache_size maxSize h1 ops, fun ops hf => ?_⟩
  obtain ⟨hord, hknd, hiff, hpw, hbound⟩ := IInv_run maxSize ops hf
  have hst := runCacheI_st maxSize ops
  rw [hst] at hknd hiff hpw
  obtain ⟨-, -, hc, -, -⟩ := evictLoop_spec (runCache maxSize ops).maxSize
    (runCache maxSize ops).accessOrder (runCache maxSize ops).cache hknd
    (fun p hp => (hiff p.1).mp (mapHas_of_mem hp))
  unfold cacheSetEvicted cacheSetSurvivors
  rw [hc]
  exact hpw.imp (fun hlt => Nat.le_of_lt hlt)

/-- Witness for the amended C3 at `maxSize = 1` with two fresh `set`s. -/
theorem C3_amended_witness :
    1 ≤ 1 ∧
    (runCache 1 [CacheOp.set (0, 0, 1) 0, CacheOp.set (0, 0, 2) 0]).cache.length ≤ 1 ∧
    FreshSets 1 [CacheOp.set (0, 0, 1) 0, CacheOp.set (0, 0, 2) 0] ∧
    (cacheSetEvicted (runCache 1 [CacheOp.set (0, 0, 1) 0, CacheOp.set (0, 0, 2) 0])
        ++ cacheSetSurvivors
          (runCache 1 [CacheOp.set (0, 0, 1) 0, CacheOp.set (0, 0, 2) 0])).Pairwise
      (fun a b => (runCacheI 1 [CacheOp.set (0, 0, 1) 0, CacheOp.set (0, 0, 2) 0]).la a
        ≤ (runCacheI 1 [CacheOp.set (0, 0, 1) 0, CacheOp.set (0, 0, 2) 0]).la b) :=
  ⟨le_refl 1,
    (C3_amended_lru 1 (le_refl 1)).1 [CacheOp.set (0, 0, 1) 0, CacheOp.set (0, 0, 2) 0],
    by decide,
    (C3_amended_lru 1 (le_refl 1)).2 [CacheOp.set (0, 0, 1) 0, CacheOp.set (0, 0, 2) 0]
      (by decide)⟩

/-- Claim C3 as stated is false: with `maxSize = 3`, after
`set k1; set k2; set k1; set k3` (the third `set` re-inserts the resident
`k1`, duplicating it in `_accessOrder`), the next `set` evicts `k1` even
though `k2` is resident and was last accessed strictly earlier (`k2` at
clock 1, `k1` at clock 2) — the evicted entry is not the least recently
accessed resident. -/
theorem C3_counterexample :
    cacheSetEvicted (runCache 3 [CacheOp.set (0, 0, 1) 0, CacheOp.set (0, 0, 2) 0,
        CacheOp.set (0, 0, 1) 1, CacheOp.set (0, 0, 3) 0]) = [(0, 0, 1)] ∧
    mapHas (runCache 3 [CacheOp.set (0, 0, 1) 0, CacheOp.set (0, 0, 2) 0,
        CacheOp.set (0, 0, 1) 1, CacheOp.set (0, 0, 3) 0]).cache (0, 0, 2) = true ∧
    (runCacheI 3 [CacheOp.set (0, 0, 1) 0, CacheOp.set (0, 0, 2) 0,
        CacheOp.set (0, 0, 1) 1, CacheOp.set (0, 0, 3) 0]).la (0, 0, 2)
      < (runCacheI 3 [CacheOp.set (0, 0, 1) 0, CacheOp.set (0, 0, 2) 0,
        CacheOp.set (0, 0, 1) 1, CacheOp.set (0, 0, 3) 0]).la (0, 0, 1) := by
  refine ⟨by decide, by decide, by decide⟩

end Terrain
